import Mathlib

/-!
Verification development for the threaded green-tree builder
(src/cstree/src/green/threaded_builder.rs).

The data model is embedded shallowly: syntax kinds are natural numbers,
token text is a Lean String, interner keys are natural numbers, and the
identity of a shared allocation (an Arc in the source) is modelled by a
fresh allocation id threaded through the cache. Map structures
(the two DashMaps) are modelled as association lists with
insert-if-absent semantics.
-/

/-- Fingerprint key of a green node in the dedup cache: kind, total text
length, and the structural hash over the direct children
(struct GreenNodeHead in the source). -/
structure GreenNodeHead where
  kind : Nat
  text_len : Nat
  child_hash : Nat
deriving DecidableEq

/-- Content of a green token: kind, optional interned text key (absent for
static text), and text length (struct GreenTokenData in the source). -/
structure GreenTokenData where
  kind : Nat
  text : Option Nat
  text_len : Nat
deriving DecidableEq

/-- A tree element: a token leaf or an interior node
(GreenElement = NodeOrToken of GreenNode and GreenToken in the source).
The first argument of each constructor is the allocation id that models
pointer identity of the shared instance. -/
inductive GreenElement : Type where
  | token (id : Nat) (data : GreenTokenData)
  | node (id : Nat) (head : GreenNodeHead) (children : List GreenElement)

/-- Allocation id of an element, modelling pointer identity. -/
def GreenElement.elemId : GreenElement → Nat
  | .token i _ => i
  | .node i _ _ => i

/-- The text length stored in an element (token.text_len resp.
node.head.text_len in the source). -/
def GreenElement.text_len : GreenElement → Nat
  | .token _ d => d.text_len
  | .node _ h _ => h.text_len

/-- The fingerprint head of a node element, none for a token. -/
def GreenElement.headOf : GreenElement → Option GreenNodeHead
  | .token _ _ => none
  | .node _ h _ => some h

/-- Modelled from the spec: a deterministic 32-bit hash combiner standing in
for FxHasher32, whose implementation is external to this repository. Only
determinism matters for the development. -/
def hashMix (a b : Nat) : Nat := (a * 1000003 + b) % 4294967296

/-- Encoding of an optional interned key for hashing. -/
def optKeyCode : Option Nat → Nat
  | none => 0
  | some k => k + 1

/-- Modelled from the spec: the per-child hash contribution, a function
solely of child kinds, child lengths, child sub-hashes and child texts
(the Hash instances of GreenToken and GreenNode are external to this
repository). -/
def elemFingerprint : GreenElement → Nat
  | .token _ d => hashMix 0 (hashMix d.kind (hashMix (optKeyCode d.text) d.text_len))
  | .node _ h _ => hashMix 1 (hashMix h.kind (hashMix h.text_len h.child_hash))

/-- Modelled from the spec: the structural hash of a child sequence, the
fold of the per-child fingerprints through the combiner. -/
def childrenHash (cs : List GreenElement) : Nat :=
  cs.foldl (fun acc e => hashMix acc (elemFingerprint e)) 0

/-- Sum of the stored text lengths of a list of elements. -/
def sumTextLenList : List GreenElement → Nat
  | [] => 0
  | e :: es => e.text_len + sumTextLenList es

mutual
/-- Sum of the lengths of all token leaves reachable from an element. -/
def tokenLengths : GreenElement → Nat
  | .token _ d => d.text_len
  | .node _ _ cs => tokenLengthsList cs

/-- Sum of the lengths of all token leaves reachable from a list of
elements. -/
def tokenLengthsList : List GreenElement → Nat
  | [] => 0
  | e :: es => tokenLengths e + tokenLengthsList es
end

mutual
/-- An element is coherent when every node's stored text length is the sum
of its children's stored text lengths, recursively. -/
def coherentElem : GreenElement → Bool
  | .token _ _ => true
  | .node _ h cs => (sumTextLenList cs == h.text_len) && coherentList cs

/-- All elements of the list are coherent. -/
def coherentList : List GreenElement → Bool
  | [] => true
  | e :: es => coherentElem e && coherentList es
end

/-- Lookup in an association list, modelling a map get. -/
def findEntry {α β : Type} [DecidableEq α] : List (α × β) → α → Option β
  | [], _ => none
  | (k, v) :: rest, k' => if k = k' then some v else findEntry rest k'

/-- If node.children() <= CHILDREN_CACHE_THRESHOLD the node is looked up in
the cache instead of being constructed fresh (constant in the source). -/
def CHILDREN_CACHE_THRESHOLD : Nat := 3

/-- The dedup cache (struct ThreadedNodeCache in the source): a map from
node fingerprints to shared nodes, a map from token data to shared tokens,
and the interner (modelled as the list of interned strings, the key of a
string being its index). internerOwned records whether the interner is
owned (MaybeOwnedRef::Owned) or borrowed (MaybeOwnedRef::Borrowed).
nextId is the allocation counter modelling fresh Arc allocations. -/
structure ThreadedNodeCache where
  nodes : List (GreenNodeHead × GreenElement)
  tokens : List (GreenTokenData × GreenElement)
  interner : List String
  internerOwned : Bool
  nextId : Nat

/-- A fresh, empty cache owning a fresh interner (ThreadedNodeCache::new). -/
def ThreadedNodeCache.new : ThreadedNodeCache :=
  { nodes := [], tokens := [], interner := [], internerOwned := true, nextId := 0 }

/-- Mutable access to the interner: available exactly when the interner is
owned (ThreadedNodeCache::interner_mut matches on MaybeOwnedRef). -/
def ThreadedNodeCache.interner_mut (c : ThreadedNodeCache) : Option (List String) :=
  if c.internerOwned then some c.interner else none

/-- get_or_intern on the modelled interner: return the index of the string
if present, otherwise append it and return the new index
(ThreadedNodeCache::intern delegating to the interner). -/
def ThreadedNodeCache.intern (c : ThreadedNodeCache) (text : String) :
    Nat × ThreadedNodeCache :=
  match c.interner.indexOf? text with
  | some i => (i, c)
  | none => (c.interner.length, { c with interner := c.interner ++ [text] })

/-- ThreadedNodeCache::get_cached_node: look up the fingerprint head in the
node map; on a hit return the stored shared node, on a miss allocate a
node from the head and children, insert it, and return it. -/
def ThreadedNodeCache.get_cached_node (c : ThreadedNodeCache) (kind : Nat)
    (children : List GreenElement) (text_len child_hash : Nat) :
    GreenElement × ThreadedNodeCache :=
  let head : GreenNodeHead := ⟨kind, text_len, child_hash⟩
  match findEntry c.nodes head with
  | some n => (n, c)
  | none =>
      let n := GreenElement.node c.nextId head children
      (n, { c with nodes := (head, n) :: c.nodes, nextId := c.nextId + 1 })

/-- ThreadedNodeCache::node: compute total text length and structural hash
over the children of the slice starting at offset, drain that slice from
all_children (the second component of the result is what remains), and
either fetch/insert through the cache (at most CHILDREN_CACHE_THRESHOLD
children) or allocate a fresh node with the same length and hash
(GreenNode::new_with_len_and_hash, modelled as a fresh allocation). -/
def ThreadedNodeCache.node (c : ThreadedNodeCache) (kind : Nat)
    (all_children : List GreenElement) (offset : Nat) :
    GreenElement × List GreenElement × ThreadedNodeCache :=
  let dropped := all_children.drop offset
  let text_len := sumTextLenList dropped
  let child_hash := childrenHash dropped
  let remaining := all_children.take offset
  if dropped.length ≤ CHILDREN_CACHE_THRESHOLD then
    let r := c.get_cached_node kind dropped text_len child_hash
    (r.1, remaining, r.2)
  else
    let n := GreenElement.node c.nextId ⟨kind, text_len, child_hash⟩ dropped
    (n, remaining, { c with nextId := c.nextId + 1 })

/-- ThreadedNodeCache::token: look the token data triple up in the token
map; on a hit return the stored shared token, on a miss allocate a fresh
token, insert it, and return it. -/
def ThreadedNodeCache.token (c : ThreadedNodeCache) (kind : Nat)
    (text : Option Nat) (len : Nat) : GreenElement × ThreadedNodeCache :=
  let data : GreenTokenData := ⟨kind, text, len⟩
  match findEntry c.tokens data with
  | some t => (t, c)
  | none =>
      let t := GreenElement.token c.nextId data
      (t, { c with tokens := (data, t) :: c.tokens, nextId := c.nextId + 1 })

/-- The builder (struct ThreadedGreenNodeBuilder in the source): the cache
(cacheOwned records whether it is owned, as with new/from_cache, or
borrowed, as with with_cache), the stack of open frames (kind, index of
the first pending child; head of the list is the top of the stack), the
flat pending-children list (in insertion order), and the cached document
length. Static text of kinds (the Syntax trait) is modelled by the
function passed to the token operations. -/
structure ThreadedGreenNodeBuilder where
  cache : ThreadedNodeCache
  cacheOwned : Bool
  parents : List (Nat × Nat)
  children : List GreenElement
  doc_len : Nat

/-- A fresh builder over an empty cache; owned says whether the builder
owns the cache (ThreadedGreenNodeBuilder::new versus with_cache). -/
def initBuilder (owned : Bool) : ThreadedGreenNodeBuilder :=
  { cache := ThreadedNodeCache.new, cacheOwned := owned,
    parents := [], children := [], doc_len := 0 }

/-- ThreadedGreenNodeBuilder::token: when the kind has static text, request
a token with no text key and the static length (the debug assertion that
the given text matches is compiled out in release builds); otherwise
intern the text and request a token with the key and the text's length.
Push the shared token and add its length to the document length. -/
def ThreadedGreenNodeBuilder.token (b : ThreadedGreenNodeBuilder)
    (st : Nat → Option String) (kind : Nat) (text : String) :
    ThreadedGreenNodeBuilder :=
  let r :=
    match st kind with
    | some static_text => b.cache.token kind none static_text.length
    | none =>
        let ri := b.cache.intern text
        ri.2.token kind (some ri.1) text.length
  { b with
    cache := r.2
    children := b.children ++ [r.1]
    doc_len := b.doc_len + r.1.text_len }

/-- ThreadedGreenNodeBuilder::static_token: fatal when the kind has no
static text; otherwise request a token with no text key and the static
length, push it and add its length. -/
def ThreadedGreenNodeBuilder.static_token (b : ThreadedGreenNodeBuilder)
    (st : Nat → Option String) (kind : Nat) :
    Option ThreadedGreenNodeBuilder :=
  match st kind with
  | none => none
  | some static_text =>
      let r := b.cache.token kind none static_text.length
      some { b with
             cache := r.2
             children := b.children ++ [r.1]
             doc_len := b.doc_len + r.1.text_len }

/-- ThreadedGreenNodeBuilder::start_node: push a frame recording the kind
and the current pending-children length. -/
def ThreadedGreenNodeBuilder.start_node (b : ThreadedGreenNodeBuilder)
    (kind : Nat) : ThreadedGreenNodeBuilder :=
  { b with parents := (kind, b.children.length) :: b.parents }

/-- ThreadedGreenNodeBuilder.finish_node: pop the most recent frame (fatal
when none is open), request a node over the pending children from the
frame's first-child index (the cache removes exactly that slice), and push
the resulting shared node. -/
def ThreadedGreenNodeBuilder.finish_node (b : ThreadedGreenNodeBuilder) :
    Option ThreadedGreenNodeBuilder :=
  match b.parents with
  | [] => none
  | (kind, first_child) :: rest =>
      let r := b.cache.node kind b.children first_child
      some { b with
             cache := r.2.2
             parents := rest
             children := r.2.1 ++ [r.1] }

/-- ThreadedGreenNodeBuilder.checkpoint: the current pending-children
length. -/
def ThreadedGreenNodeBuilder.checkpoint (b : ThreadedGreenNodeBuilder) : Nat :=
  b.children.length

/-- The second assertion of start_node_at: with an open frame, the
checkpoint may not precede the frame's first-child index. -/
def checkpointInScope (parents : List (Nat × Nat)) (cp : Nat) : Bool :=
  match parents with
  | [] => true
  | (_, first_child) :: _ => decide (first_child ≤ cp)

/-- ThreadedGreenNodeBuilder.start_node_at: fatal when the checkpoint
exceeds the pending-children length, or when an open frame's first-child
index exceeds the checkpoint; otherwise push a frame whose first-child
index is the checkpoint. -/
def ThreadedGreenNodeBuilder.start_node_at (b : ThreadedGreenNodeBuilder)
    (cp : Nat) (kind : Nat) : Option ThreadedGreenNodeBuilder :=
  if cp ≤ b.children.length then
    if checkpointInScope b.parents cp then
      some { b with parents := (kind, cp) :: b.parents }
    else none
  else none

/-- ThreadedGreenNodeBuilder.finish: fatal unless exactly one pending
element remains and it is a node; return the root together with the cache
when the builder owned it (MaybeOwnedRef::into_owned, modelled from the
spec: the owned cache is recovered, a borrowed one is not returned). -/
def ThreadedGreenNodeBuilder.finish (b : ThreadedGreenNodeBuilder) :
    Option (GreenElement × Option ThreadedNodeCache) :=
  match b.children with
  | [GreenElement.node i h cs] =>
      some (GreenElement.node i h cs,
            if b.cacheOwned then some b.cache else none)
  | [GreenElement.token _ _] => none
  | _ => none

/-- First-child index of the currently open frame, or 0 with no open frame
(the index computed by current_children). -/
def ThreadedGreenNodeBuilder.currentFirstChild
    (b : ThreadedGreenNodeBuilder) : Nat :=
  match b.parents with
  | [] => 0
  | (_, first_child) :: _ => first_child

/-- ThreadedGreenNodeBuilder.current_children: the pending children of the
currently open frame (the slice of children from the first-child index). -/
def ThreadedGreenNodeBuilder.current_children
    (b : ThreadedGreenNodeBuilder) : List GreenElement :=
  b.children.drop b.currentFirstChild

/-- ThreadedGreenNodeBuilder.pop_last_child: fatal when the current frame
has no children; otherwise remove the last pending child, subtract its
length from the document length, and return it. -/
def ThreadedGreenNodeBuilder.pop_last_child (b : ThreadedGreenNodeBuilder) :
    Option (GreenElement × ThreadedGreenNodeBuilder) :=
  if b.current_children.isEmpty then none
  else
    match b.children.getLast? with
    | none => none
    | some e =>
        some (e, { b with
                   children := b.children.dropLast
                   doc_len := b.doc_len - e.text_len })

/-- ThreadedGreenNodeBuilder.document_len. -/
def ThreadedGreenNodeBuilder.document_len (b : ThreadedGreenNodeBuilder) : Nat :=
  b.doc_len

/-- ThreadedGreenNodeBuilder::interner_mut: mutable access to the interner
is available exactly when the builder owns its cache and the cache owns
its interner. -/
def ThreadedGreenNodeBuilder.interner_mut (b : ThreadedGreenNodeBuilder) :
    Option (List String) :=
  if b.cacheOwned then b.cache.interner_mut else none

/-- One mutating public operation of the builder. start_node_at carries an
arbitrary checkpoint index, covering every checkpoint the caller could
have taken earlier. -/
inductive BuilderOp : Type where
  | tokenOp (kind : Nat) (text : String)
  | staticTokenOp (kind : Nat)
  | startNodeOp (kind : Nat)
  | startNodeAtOp (cp : Nat) (kind : Nat)
  | finishNodeOp
  | popLastChildOp

/-- Apply one operation; none models a fatal contract violation. -/
def applyOp (st : Nat → Option String) (b : ThreadedGreenNodeBuilder) :
    BuilderOp → Option ThreadedGreenNodeBuilder
  | .tokenOp kind text => some (b.token st kind text)
  | .staticTokenOp kind => b.static_token st kind
  | .startNodeOp kind => some (b.start_node kind)
  | .startNodeAtOp cp kind => b.start_node_at cp kind
  | .finishNodeOp => b.finish_node
  | .popLastChildOp => (b.pop_last_child).map Prod.snd

/-- Run a sequence of operations, stopping at the first violation. -/
def run (st : Nat → Option String) (b : ThreadedGreenNodeBuilder) :
    List BuilderOp → Option ThreadedGreenNodeBuilder
  | [] => some b
  | op :: ops =>
      match applyOp st b op with
      | none => none
      | some b' => run st b' ops

/-- One mutating operation on a cache, as issued by any builder sharing
it. -/
inductive CacheOp : Type where
  | tokenOp (kind : Nat) (text : Option Nat) (len : Nat)
  | nodeOp (kind : Nat) (cs : List GreenElement) (offset : Nat)
  | internOp (s : String)

/-- Apply one cache operation, keeping only the resulting cache. -/
def applyCacheOp (c : ThreadedNodeCache) : CacheOp → ThreadedNodeCache
  | .tokenOp k t l => (c.token k t l).2
  | .nodeOp k cs off => (c.node k cs off).2.2
  | .internOp s => (c.intern s).2

/-- Run a sequence of cache operations. -/
def runCacheOps (c : ThreadedNodeCache) : List CacheOp → ThreadedNodeCache
  | [] => c
  | op :: ops => runCacheOps (applyCacheOp c op) ops

theorem sumTextLenList_append (xs ys : List GreenElement) :
    sumTextLenList (xs ++ ys) = sumTextLenList xs + sumTextLenList ys := by
  induction xs with
  | nil => simp [sumTextLenList]
  | cons e es ih => simp [sumTextLenList, ih]; omega

theorem sumTextLenList_take_drop (xs : List GreenElement) (n : Nat) :
    sumTextLenList (xs.take n) + sumTextLenList (xs.drop n) = sumTextLenList xs := by
  rw [← sumTextLenList_append, List.take_append_drop]

theorem coherentList_iff_forall (xs : List GreenElement) :
    coherentList xs = true ↔ ∀ e ∈ xs, coherentElem e = true := by
  induction xs with
  | nil => simp [coherentList]
  | cons e es ih => simp [coherentList, ih]

theorem coherentList_append (xs ys : List GreenElement) :
    coherentList (xs ++ ys) = (coherentList xs && coherentList ys) := by
  induction xs with
  | nil => simp [coherentList]
  | cons e es ih => simp [coherentList, ih, Bool.and_assoc]

mutual
theorem coherent_tokenLengths (e : GreenElement) (h : coherentElem e = true) :
    tokenLengths e = e.text_len := by
  cases e with
  | token i d => rfl
  | node i hd cs =>
      have h' := h
      simp only [coherentElem, Bool.and_eq_true, beq_iff_eq] at h'
      show tokenLengthsList cs = hd.text_len
      rw [coherent_tokenLengthsList cs h'.2, h'.1]

theorem coherent_tokenLengthsList (cs : List GreenElement)
    (h : coherentList cs = true) : tokenLengthsList cs = sumTextLenList cs := by
  cases cs with
  | nil => rfl
  | cons e es =>
      have h' := h
      simp only [coherentList, Bool.and_eq_true] at h'
      show tokenLengths e + tokenLengthsList es = e.text_len + sumTextLenList es
      rw [coherent_tokenLengths e h'.1, coherent_tokenLengthsList es h'.2]
end

/-- A token-map entry stores a token whose data is exactly its key. -/
def tokEntryOk : GreenTokenData × GreenElement → Bool
  | (d, GreenElement.token _ d') => decide (d' = d)
  | _ => false

/-- A node-map entry stores a coherent node whose head is exactly its
key. -/
def nodeEntryOk : GreenNodeHead × GreenElement → Bool
  | (h, GreenElement.node i h' cs) =>
      decide (h' = h) && coherentElem (GreenElement.node i h' cs)
  | _ => false

/-- Well-formedness of a cache: every entry of the two maps matches its
key and is coherent. -/
def CacheOk (c : ThreadedNodeCache) : Prop :=
  (∀ p ∈ c.tokens, tokEntryOk p = true) ∧ (∀ p ∈ c.nodes, nodeEntryOk p = true)

theorem cacheOk_new : CacheOk ThreadedNodeCache.new := by
  constructor <;> intro p hp <;> simp [ThreadedNodeCache.new] at hp

theorem findEntry_mem {α β : Type} [DecidableEq α] (l : List (α × β)) (k : α)
    (v : β) (h : findEntry l k = some v) : (k, v) ∈ l := by
  induction l with
  | nil => simp [findEntry] at h
  | cons p rest ih =>
      obtain ⟨k', v'⟩ := p
      by_cases hk : k' = k
      · subst hk
        simp [findEntry] at h
        subst h
        exact List.mem_cons_self _ _
      · simp [findEntry, hk] at h
        exact List.mem_cons_of_mem _ (ih h)

theorem cache_token_shape (c : ThreadedNodeCache) (k : Nat) (t : Option Nat)
    (l : Nat) (hc : CacheOk c) :
    ∃ i, (c.token k t l).1 = GreenElement.token i ⟨k, t, l⟩ := by
  unfold ThreadedNodeCache.token
  dsimp only
  cases hf : findEntry c.tokens ⟨k, t, l⟩ with
  | none => exact ⟨c.nextId, rfl⟩
  | some e =>
      have hm := findEntry_mem _ _ _ hf
      have := hc.1 _ hm
      cases e with
      | token i d' =>
          simp only [tokEntryOk, decide_eq_true_eq] at this
          exact ⟨i, by simp [this]⟩
      | node i h' cs => simp [tokEntryOk] at this

theorem cache_token_cacheOk (c : ThreadedNodeCache) (k : Nat) (t : Option Nat)
    (l : Nat) (hc : CacheOk c) : CacheOk (c.token k t l).2 := by
  unfold ThreadedNodeCache.token
  dsimp only
  cases hf : findEntry c.tokens ⟨k, t, l⟩ with
  | some e => exact hc
  | none =>
      refine ⟨?_, hc.2⟩
      intro p hp
      rcases List.mem_cons.mp hp with h | h
      · subst h; simp [tokEntryOk]
      · exact hc.1 _ h

theorem cache_token_text_len (c : ThreadedNodeCache) (k : Nat) (t : Option Nat)
    (l : Nat) (hc : CacheOk c) : (c.token k t l).1.text_len = l := by
  obtain ⟨i, hi⟩ := cache_token_shape c k t l hc
  rw [hi]; rfl

theorem cache_token_coherent (c : ThreadedNodeCache) (k : Nat) (t : Option Nat)
    (l : Nat) (hc : CacheOk c) : coherentElem (c.token k t l).1 = true := by
  obtain ⟨i, hi⟩ := cache_token_shape c k t l hc
  rw [hi]; rfl

theorem cache_node_remaining (c : ThreadedNodeCache) (k : Nat)
    (all : List GreenElement) (off : Nat) :
    (c.node k all off).2.1 = all.take off := by
  unfold ThreadedNodeCache.node
  dsimp only
  split <;> rfl

theorem get_cached_node_text_len (c : ThreadedNodeCache) (k : Nat)
    (cs : List GreenElement) (tl hh : Nat) (hc : CacheOk c) :
    (c.get_cached_node k cs tl hh).1.text_len = tl := by
  unfold ThreadedNodeCache.get_cached_node
  dsimp only
  cases hf : findEntry c.nodes ⟨k, tl, hh⟩ with
  | none => rfl
  | some e =>
      have hm := findEntry_mem _ _ _ hf
      have := hc.2 _ hm
      cases e with
      | token i d => simp [nodeEntryOk] at this
      | node i h' cs' =>
          simp only [nodeEntryOk, Bool.and_eq_true, decide_eq_true_eq] at this
          simp [GreenElement.text_len, this.1]

theorem get_cached_node_coherent (c : ThreadedNodeCache) (k : Nat)
    (cs : List GreenElement) (tl hh : Nat) (hc : CacheOk c)
    (hcs : coherentList cs = true) (hlen : sumTextLenList cs = tl) :
    coherentElem (c.get_cached_node k cs tl hh).1 = true := by
  unfold ThreadedNodeCache.get_cached_node
  dsimp only
  cases hf : findEntry c.nodes ⟨k, tl, hh⟩ with
  | none => simp [coherentElem, hcs, hlen]
  | some e =>
      have hm := findEntry_mem _ _ _ hf
      have := hc.2 _ hm
      cases e with
      | token i d => simp [nodeEntryOk] at this
      | node i h' cs' =>
          simp only [nodeEntryOk, Bool.and_eq_true, decide_eq_true_eq] at this
          exact this.2

theorem get_cached_node_cacheOk (c : ThreadedNodeCache) (k : Nat)
    (cs : List GreenElement) (tl hh : Nat) (hc : CacheOk c)
    (hcs : coherentList cs = true) (hlen : sumTextLenList cs = tl) :
    CacheOk (c.get_cached_node k cs tl hh).2 := by
  unfold ThreadedNodeCache.get_cached_node
  dsimp only
  cases hf : findEntry c.nodes ⟨k, tl, hh⟩ with
  | some e => exact hc
  | none =>
      refine ⟨hc.1, ?_⟩
      intro p hp
      rcases List.mem_cons.mp hp with h | h
      · subst h; simp [nodeEntryOk, coherentElem, hcs, hlen]
      · exact hc.2 _ h

theorem cache_node_text_len (c : ThreadedNodeCache) (k : Nat)
    (all : List GreenElement) (off : Nat) (hc : CacheOk c) :
    (c.node k all off).1.text_len = sumTextLenList (all.drop off) := by
  unfold ThreadedNodeCache.node
  dsimp only
  split
  · exact get_cached_node_text_len _ _ _ _ _ hc
  · rfl

theorem cache_node_coherent (c : ThreadedNodeCache) (k : Nat)
    (all : List GreenElement) (off : Nat) (hc : CacheOk c)
    (hcs : coherentList (all.drop off) = true) :
    coherentElem (c.node k all off).1 = true := by
  unfold ThreadedNodeCache.node
  dsimp only
  split
  · exact get_cached_node_coherent _ _ _ _ _ hc hcs rfl
  · simp [coherentElem, hcs]

theorem cache_node_cacheOk (c : ThreadedNodeCache) (k : Nat)
    (all : List GreenElement) (off : Nat) (hc : CacheOk c)
    (hcs : coherentList (all.drop off) = true) :
    CacheOk (c.node k all off).2.2 := by
  unfold ThreadedNodeCache.node
  dsimp only
  split
  · exact get_cached_node_cacheOk _ _ _ _ _ hc hcs rfl
  · exact hc

theorem eq_dropLast_append {α : Type} (l : List α) (e : α)
    (h : l.getLast? = some e) : l = l.dropLast ++ [e] := by
  cases l with
  | nil => simp at h
  | cons a as =>
      have hne : a :: as ≠ [] := by simp
      rw [List.getLast?_eq_getLast_of_ne_nil hne] at h
      simp only [Option.some_inj] at h
      rw [← h]
      exact (List.dropLast_append_getLast hne).symm

theorem cache_intern_cacheOk (c : ThreadedNodeCache) (s : String)
    (hc : CacheOk c) : CacheOk (c.intern s).2 := by
  unfold ThreadedNodeCache.intern
  cases hf : c.interner.indexOf? s with
  | some i => exact hc
  | none => exact hc

/-- The running document-length invariant of the builder together with the
structural well-formedness it depends on: the cached document length is
the sum of the stored lengths of the pending children, every pending
child is coherent, and the cache is well formed. -/
def BuilderInv (b : ThreadedGreenNodeBuilder) : Prop :=
  b.doc_len = sumTextLenList b.children ∧ coherentList b.children = true ∧
    CacheOk b.cache

theorem builderInv_push (b : ThreadedGreenNodeBuilder)
    (c' : ThreadedNodeCache) (e : GreenElement) (he : coherentElem e = true)
    (hc' : CacheOk c') (h : BuilderInv b) :
    BuilderInv ⟨c', b.cacheOwned, b.parents, b.children ++ [e],
                b.doc_len + e.text_len⟩ := by
  obtain ⟨hd, hcs, _⟩ := h
  refine ⟨?_, ?_, hc'⟩
  · simp only [sumTextLenList_append, hd, sumTextLenList]
    omega
  · simp [coherentList_append, hcs, coherentList, he]

theorem token_inv (b : ThreadedGreenNodeBuilder) (st : Nat → Option String)
    (kind : Nat) (text : String) (h : BuilderInv b) :
    BuilderInv (b.token st kind text) := by
  cases hst : st kind with
  | some s =>
      have heq : b.token st kind text =
          ⟨(b.cache.token kind none s.length).2, b.cacheOwned, b.parents,
           b.children ++ [(b.cache.token kind none s.length).1],
           b.doc_len + (b.cache.token kind none s.length).1.text_len⟩ := by
        unfold ThreadedGreenNodeBuilder.token
        rw [hst]
      rw [heq]
      exact builderInv_push b _ _ (cache_token_coherent _ _ _ _ h.2.2)
        (cache_token_cacheOk _ _ _ _ h.2.2) h
  | none =>
      have hc1 : CacheOk (b.cache.intern text).2 :=
        cache_intern_cacheOk b.cache text h.2.2
      have heq : b.token st kind text =
          ⟨((b.cache.intern text).2.token kind (some (b.cache.intern text).1)
              text.length).2, b.cacheOwned, b.parents,
           b.children ++ [((b.cache.intern text).2.token kind
              (some (b.cache.intern text).1) text.length).1],
           b.doc_len + ((b.cache.intern text).2.token kind
              (some (b.cache.intern text).1) text.length).1.text_len⟩ := by
        unfold ThreadedGreenNodeBuilder.token
        rw [hst]
      rw [heq]
      exact builderInv_push b _ _ (cache_token_coherent _ _ _ _ hc1)
        (cache_token_cacheOk _ _ _ _ hc1) h

theorem static_token_inv (b b' : ThreadedGreenNodeBuilder)
    (st : Nat → Option String) (kind : Nat)
    (hb : b.static_token st kind = some b') (h : BuilderInv b) :
    BuilderInv b' := by
  unfold ThreadedGreenNodeBuilder.static_token at hb
  cases hst : st kind with
  | none => rw [hst] at hb; exact absurd hb (by simp)
  | some s =>
      rw [hst] at hb
      dsimp only at hb
      rw [← Option.some_inj.mp hb]
      exact builderInv_push b _ _ (cache_token_coherent _ _ _ _ h.2.2)
        (cache_token_cacheOk _ _ _ _ h.2.2) h

theorem coherentList_take (xs : List GreenElement) (n : Nat)
    (h : coherentList xs = true) : coherentList (xs.take n) = true := by
  rw [coherentList_iff_forall] at h ⊢
  exact fun e he => h e (List.mem_of_mem_take he)

theorem coherentList_drop (xs : List GreenElement) (n : Nat)
    (h : coherentList xs = true) : coherentList (xs.drop n) = true := by
  rw [coherentList_iff_forall] at h ⊢
  exact fun e he => h e (List.mem_of_mem_drop he)

theorem coherentList_dropLast (xs : List GreenElement)
    (h : coherentList xs = true) : coherentList xs.dropLast = true := by
  rw [coherentList_iff_forall] at h ⊢
  exact fun e he => h e (List.mem_of_mem_dropLast he)

theorem finish_node_inv (b b' : ThreadedGreenNodeBuilder)
    (hb : b.finish_node = some b') (h : BuilderInv b) : BuilderInv b' := by
  obtain ⟨hd, hcs, hc⟩ := h
  unfold ThreadedGreenNodeBuilder.finish_node at hb
  cases hp : b.parents with
  | nil => rw [hp] at hb; exact absurd hb (by simp)
  | cons p rest =>
      obtain ⟨kind, first_child⟩ := p
      rw [hp] at hb
      dsimp only at hb
      rw [← Option.some_inj.mp hb]
      have hdrop := coherentList_drop b.children first_child hcs
      refine ⟨?_, ?_, cache_node_cacheOk _ _ _ _ hc hdrop⟩
      · show b.doc_len = sumTextLenList ((b.cache.node kind b.children first_child).2.1 ++ [(b.cache.node kind b.children first_child).1])
        rw [cache_node_remaining, sumTextLenList_append]
        show b.doc_len = sumTextLenList (b.children.take first_child) +
          ((b.cache.node kind b.children first_child).1.text_len + 0)
        rw [cache_node_text_len _ _ _ _ hc]
        have := sumTextLenList_take_drop b.children first_child
        omega
      · show coherentList ((b.cache.node kind b.children first_child).2.1 ++ [(b.cache.node kind b.children first_child).1]) = true
        rw [cache_node_remaining, coherentList_append]
        simp [coherentList_take b.children first_child hcs, coherentList,
          cache_node_coherent _ _ _ _ hc hdrop]

theorem pop_last_child_inv (b b' : ThreadedGreenNodeBuilder)
    (e : GreenElement) (hb : b.pop_last_child = some (e, b'))
    (h : BuilderInv b) : BuilderInv b' := by
  obtain ⟨hd, hcs, hc⟩ := h
  unfold ThreadedGreenNodeBuilder.pop_last_child at hb
  by_cases hne : b.current_children.isEmpty
  · rw [if_pos hne] at hb; exact absurd hb (by simp)
  · rw [if_neg hne] at hb
    cases hl : b.children.getLast? with
    | none => rw [hl] at hb; exact absurd hb (by simp)
    | some e2 =>
        rw [hl] at hb
        simp only [Option.some_inj, Prod.mk.injEq] at hb
        obtain ⟨he, hb'⟩ := hb
        subst he
        rw [← hb']
        have hsplit := eq_dropLast_append b.children e2 hl
        refine ⟨?_, coherentList_dropLast _ hcs, hc⟩
        · show b.doc_len - e2.text_len = sumTextLenList b.children.dropLast
          conv at hd => rw [hsplit]
          rw [sumTextLenList_append] at hd
          simp only [sumTextLenList] at hd
          omega

theorem applyOp_inv (st : Nat → Option String) (b : ThreadedGreenNodeBuilder)
    (op : BuilderOp) (b' : ThreadedGreenNodeBuilder)
    (h : BuilderInv b) (hb : applyOp st b op = some b') : BuilderInv b' := by
  cases op with
  | tokenOp k tx =>
      simp only [applyOp, Option.some_inj] at hb
      rw [← hb]
      exact token_inv b st k tx h
  | staticTokenOp k => exact static_token_inv b b' st k hb h
  | startNodeOp k =>
      simp only [applyOp, Option.some_inj] at hb
      rw [← hb]
      exact h
  | startNodeAtOp cp k =>
      simp only [applyOp] at hb
      unfold ThreadedGreenNodeBuilder.start_node_at at hb
      split at hb
      · split at hb
        · rw [← Option.some_inj.mp hb]
          exact h
        · exact absurd hb (by simp)
      · exact absurd hb (by simp)
  | finishNodeOp =>
      simp only [applyOp] at hb
      exact finish_node_inv b b' hb h
  | popLastChildOp =>
      simp only [applyOp] at hb
      cases hp : b.pop_last_child with
      | none => rw [hp] at hb; exact absurd hb (by simp)
      | some pr =>
          obtain ⟨e, b2⟩ := pr
          rw [hp] at hb
          simp only [Option.map_some', Option.some_inj] at hb
          rw [← hb]
          exact pop_last_child_inv b b2 e hp h

theorem run_preserve (st : Nat → Option String)
    (P : ThreadedGreenNodeBuilder → Prop)
    (hstep : ∀ b op b', P b → applyOp st b op = some b' → P b') :
    ∀ (ops : List BuilderOp) (b b' : ThreadedGreenNodeBuilder),
      run st b ops = some b' → P b → P b' := by
  intro ops
  induction ops with
  | nil =>
      intro b b' h hp
      simp only [run, Option.some_inj] at h
      rw [← h]
      exact hp
  | cons op ops ih =>
      intro b b' h hp
      unfold run at h
      cases ha : applyOp st b op with
      | none => rw [ha] at h; exact absurd h (by simp)
      | some b1 =>
          rw [ha] at h
          exact ih b1 b' h (hstep b op b1 hp ha)

theorem builderInv_init (owned : Bool) : BuilderInv (initBuilder owned) :=
  ⟨rfl, rfl, cacheOk_new⟩

/-- Claim C3: after any successful sequence of builder operations (token,
static_token, start_node, start_node_at, finish_node, pop_last_child)
from a fresh builder, document_len equals the sum of the text lengths of
all tokens reachable from the pending-children structure. -/
theorem claim_C3_document_len (st : Nat → Option String) (owned : Bool)
    (ops : List BuilderOp) (b : ThreadedGreenNodeBuilder)
    (h : run st (initBuilder owned) ops = some b) :
    b.document_len = tokenLengthsList b.children := by
  have hinv := run_preserve st BuilderInv (fun b op b' hp ha => applyOp_inv st b op b' hp ha)
    ops (initBuilder owned) b h (builderInv_init owned)
  rw [ThreadedGreenNodeBuilder.document_len, hinv.1,
    coherent_tokenLengthsList _ hinv.2.1]

/-- The frame-stack invariant: the first-child index of every open frame
is at most the pending-children length, and the indices are non-decreasing
from the bottom of the stack to the top (the head of the list). -/
def framesOk : List (Nat × Nat) → Nat → Bool
  | [], _ => true
  | (_, fc) :: rest, len => decide (fc ≤ len) && framesOk rest fc

theorem framesOk_mono (ps : List (Nat × Nat)) (len len' : Nat)
    (h : framesOk ps len = true) (hle : len ≤ len') : framesOk ps len' = true := by
  cases ps with
  | nil => rfl
  | cons p rest =>
      obtain ⟨k, fc⟩ := p
      simp only [framesOk, Bool.and_eq_true, decide_eq_true_eq] at h ⊢
      exact ⟨le_trans h.1 hle, h.2⟩

/-- The frame-stack invariant as a predicate on the builder state. -/
def GoodFrames (b : ThreadedGreenNodeBuilder) : Prop :=
  framesOk b.parents b.children.length = true

theorem applyOp_frames (st : Nat → Option String) (b : ThreadedGreenNodeBuilder)
    (op : BuilderOp) (b' : ThreadedGreenNodeBuilder)
    (h : GoodFrames b) (hb : applyOp st b op = some b') : GoodFrames b' := by
  cases op with
  | tokenOp k tx =>
      simp only [applyOp, Option.some_inj] at hb
      rw [← hb]
      unfold GoodFrames
      have hp : (b.token st k tx).parents = b.parents := rfl
      have hlen : (b.token st k tx).children.length = b.children.length + 1 := by
        unfold ThreadedGreenNodeBuilder.token
        simp
      rw [hp, hlen]
      exact framesOk_mono _ _ _ h (Nat.le_succ _)
  | staticTokenOp k =>
      simp only [applyOp] at hb
      unfold ThreadedGreenNodeBuilder.static_token at hb
      cases hst : st k with
      | none => rw [hst] at hb; exact absurd hb (by simp)
      | some s =>
          rw [hst] at hb
          dsimp only at hb
          rw [← Option.some_inj.mp hb]
          unfold GoodFrames
          simp only [List.length_append, List.length_cons, List.length_nil]
          exact framesOk_mono _ _ _ h (Nat.le_succ _)
  | startNodeOp k =>
      simp only [applyOp, Option.some_inj] at hb
      rw [← hb]
      unfold GoodFrames ThreadedGreenNodeBuilder.start_node
      simp only [framesOk, Bool.and_eq_true, decide_eq_true_eq]
      exact ⟨le_refl _, h⟩
  | startNodeAtOp cp k =>
      simp only [applyOp] at hb
      unfold ThreadedGreenNodeBuilder.start_node_at at hb
      split at hb
      case isTrue h1 =>
        split at hb
        case isTrue h2 =>
          rw [← Option.some_inj.mp hb]
          unfold GoodFrames
          simp only [framesOk, Bool.and_eq_true, decide_eq_true_eq]
          refine ⟨h1, ?_⟩
          cases hp : b.parents with
          | nil => rfl
          | cons p rest =>
              obtain ⟨k0, fc⟩ := p
              rw [hp] at h2
              unfold checkpointInScope at h2
              simp only [decide_eq_true_eq] at h2
              have h' := h
              unfold GoodFrames at h'
              rw [hp] at h'
              simp only [framesOk, Bool.and_eq_true, decide_eq_true_eq] at h'
              simp only [framesOk, Bool.and_eq_true, decide_eq_true_eq]
              exact ⟨h2, h'.2⟩
        case isFalse h2 => exact absurd hb (by simp)
      case isFalse h1 => exact absurd hb (by simp)
  | finishNodeOp =>
      simp only [applyOp] at hb
      unfold ThreadedGreenNodeBuilder.finish_node at hb
      cases hp : b.parents with
      | nil => rw [hp] at hb; exact absurd hb (by simp)
      | cons p rest =>
          obtain ⟨k, fc⟩ := p
          rw [hp] at hb
          dsimp only at hb
          rw [← Option.some_inj.mp hb]
          have h' := h
          unfold GoodFrames at h'
          rw [hp] at h'
          simp only [framesOk, Bool.and_eq_true, decide_eq_true_eq] at h'
          unfold GoodFrames
          dsimp only
          rw [cache_node_remaining]
          simp only [List.length_append, List.length_take,
            List.length_cons, List.length_nil]
          rw [Nat.min_eq_left h'.1]
          exact framesOk_mono _ _ _ h'.2 (Nat.le_succ _)
  | popLastChildOp =>
      simp only [applyOp] at hb
      unfold ThreadedGreenNodeBuilder.pop_last_child at hb
      by_cases hne : b.current_children.isEmpty
      · rw [if_pos hne] at hb; exact absurd hb (by simp)
      · rw [if_neg hne] at hb
        cases hl : b.children.getLast? with
        | none => rw [hl] at hb; exact absurd hb (by simp)
        | some e2 =>
            rw [hl] at hb
            simp only [Option.map_some', Option.some_inj] at hb
            rw [← hb]
            unfold GoodFrames
            dsimp only
            rw [List.length_dropLast]
            have hfc : b.currentFirstChild < b.children.length := by
              unfold ThreadedGreenNodeBuilder.current_children at hne
              rw [List.isEmpty_iff] at hne
              by_contra hcon
              push_neg at hcon
              exact hne (List.drop_eq_nil_of_le hcon)
            cases hp : b.parents with
            | nil => rfl
            | cons p rest =>
                obtain ⟨k0, fc⟩ := p
                have h' := h
                unfold GoodFrames at h'
                rw [hp] at h'
                simp only [framesOk, Bool.and_eq_true, decide_eq_true_eq] at h'
                unfold ThreadedGreenNodeBuilder.currentFirstChild at hfc
                rw [hp] at hfc
                dsimp only at hfc
                simp only [framesOk, Bool.and_eq_true, decide_eq_true_eq]
                exact ⟨by omega, h'.2⟩

/-- Claim C9: in every builder state reachable from a fresh builder by
non-fatal public operations, the open frames' first-child indices are
non-decreasing from the bottom of the stack to the top, the topmost is at
most the pending-children length, and hence the slice taken by
current_children starts within bounds. -/
theorem claim_C9_frame_invariant (st : Nat → Option String) (owned : Bool)
    (ops : List BuilderOp) (b : ThreadedGreenNodeBuilder)
    (h : run st (initBuilder owned) ops = some b) :
    framesOk b.parents b.children.length = true ∧
      b.currentFirstChild ≤ b.children.length := by
  have hg : GoodFrames b :=
    run_preserve st GoodFrames
      (fun b op b' hp ha => applyOp_frames st b op b' hp ha)
      ops (initBuilder owned) b h rfl
  refine ⟨hg, ?_⟩
  unfold GoodFrames at hg
  unfold ThreadedGreenNodeBuilder.currentFirstChild
  cases hp : b.parents with
  | nil => exact Nat.zero_le _
  | cons p rest =>
      obtain ⟨k0, fc⟩ := p
      rw [hp] at hg
      simp only [framesOk, Bool.and_eq_true, decide_eq_true_eq] at hg
      exact hg.1

/-- Claim C10: in every reachable builder state, start_node_at applied to
a checkpoint taken in that state behaves exactly like start_node: it
succeeds and pushes a frame recording the kind and the current
pending-children length, leaving children and document length untouched. -/
theorem claim_C10_start_node_at_checkpoint (st : Nat → Option String)
    (owned : Bool) (ops : List BuilderOp) (b : ThreadedGreenNodeBuilder)
    (k : Nat) (h : run st (initBuilder owned) ops = some b) :
    b.start_node_at b.checkpoint k = some (b.start_node k) := by
  have hg : GoodFrames b :=
    run_preserve st GoodFrames
      (fun b op b' hp ha => applyOp_frames st b op b' hp ha)
      ops (initBuilder owned) b h rfl
  unfold ThreadedGreenNodeBuilder.start_node_at ThreadedGreenNodeBuilder.checkpoint
  rw [if_pos (le_refl b.children.length)]
  have hscope : checkpointInScope b.parents b.children.length = true := by
    unfold checkpointInScope
    cases hp : b.parents with
    | nil => rfl
    | cons p rest =>
        obtain ⟨k0, fc⟩ := p
        unfold GoodFrames at hg
        rw [hp] at hg
        simp only [framesOk, Bool.and_eq_true, decide_eq_true_eq] at hg
        simp only [decide_eq_true_eq]
        exact hg.1
  rw [if_pos hscope]
  rfl

/-- Claim C1: with at least one open frame (and the frame's first-child
index within the pending list, which holds in every reachable state),
finish_node pops the top frame, truncates the pending list back to the
frame's first-child index regardless of cache hit or miss, and pushes the
single resulting shared node, so the list's length becomes
first_child + 1. -/
theorem claim_C1_finish_node (b : ThreadedGreenNodeBuilder) (k fc : Nat)
    (rest : List (Nat × Nat)) (hp : b.parents = (k, fc) :: rest)
    (hlen : fc ≤ b.children.length) :
    b.finish_node = some
      { b with
        cache := (b.cache.node k b.children fc).2.2
        parents := rest
        children := b.children.take fc ++ [(b.cache.node k b.children fc).1] } ∧
    (b.children.take fc ++ [(b.cache.node k b.children fc).1]).length = fc + 1 := by
  constructor
  · unfold ThreadedGreenNodeBuilder.finish_node
    rw [hp]
    dsimp only
    rw [cache_node_remaining]
  · simp only [List.length_append, List.length_take, List.length_cons,
      List.length_nil]
    omega

theorem cache_token_tokens_lookup (c : ThreadedNodeCache) (k : Nat)
    (t : Option Nat) (l : Nat) :
    findEntry (c.token k t l).2.tokens ⟨k, t, l⟩ = some (c.token k t l).1 := by
  unfold ThreadedNodeCache.token
  dsimp only
  cases hf : findEntry c.tokens ⟨k, t, l⟩ with
  | some e => exact hf
  | none => simp [findEntry]

theorem cache_token_nodes_eq (c : ThreadedNodeCache) (k : Nat) (t : Option Nat)
    (l : Nat) : (c.token k t l).2.nodes = c.nodes := by
  unfold ThreadedNodeCache.token
  dsimp only
  cases hf : findEntry c.tokens ⟨k, t, l⟩ with
  | some e => rfl
  | none => rfl

theorem cache_intern_maps_eq (c : ThreadedNodeCache) (s : String) :
    (c.intern s).2.tokens = c.tokens ∧ (c.intern s).2.nodes = c.nodes := by
  unfold ThreadedNodeCache.intern
  cases hf : c.interner.indexOf? s with
  | some i => exact ⟨rfl, rfl⟩
  | none => exact ⟨rfl, rfl⟩

theorem get_cached_node_tokens_eq (c : ThreadedNodeCache) (k : Nat)
    (cs : List GreenElement) (tl hh : Nat) :
    (c.get_cached_node k cs tl hh).2.tokens = c.tokens := by
  unfold ThreadedNodeCache.get_cached_node
  dsimp only
  cases hf : findEntry c.nodes ⟨k, tl, hh⟩ with
  | some e => rfl
  | none => rfl

theorem cache_node_tokens_eq (c : ThreadedNodeCache) (k : Nat)
    (all : List GreenElement) (off : Nat) :
    (c.node k all off).2.2.tokens = c.tokens := by
  unfold ThreadedNodeCache.node
  dsimp only
  split
  · exact get_cached_node_tokens_eq _ _ _ _ _
  · rfl

theorem findEntry_cons_preserve {α β : Type} [DecidableEq α]
    (l : List (α × β)) (k0 : α) (v0 : β) (k : α) (v : β)
    (hnone : findEntry l k0 = none) (h : findEntry l k = some v) :
    findEntry ((k0, v0) :: l) k = some v := by
  unfold findEntry
  by_cases hk : k0 = k
  · subst hk; rw [hnone] at h; exact absurd h (by simp)
  · rw [if_neg hk]; exact h

theorem cache_token_tokens_mono (c : ThreadedNodeCache) (k : Nat)
    (t : Option Nat) (l : Nat) (d : GreenTokenData) (v : GreenElement)
    (h : findEntry c.tokens d = some v) :
    findEntry (c.token k t l).2.tokens d = some v := by
  unfold ThreadedNodeCache.token
  dsimp only
  cases hf : findEntry c.tokens ⟨k, t, l⟩ with
  | some e => exact h
  | none => exact findEntry_cons_preserve _ _ _ _ _ hf h

theorem get_cached_node_nodes_mono (c : ThreadedNodeCache) (k : Nat)
    (cs : List GreenElement) (tl hh : Nat) (hd : GreenNodeHead)
    (v : GreenElement) (h : findEntry c.nodes hd = some v) :
    findEntry (c.get_cached_node k cs tl hh).2.nodes hd = some v := by
  unfold ThreadedNodeCache.get_cached_node
  dsimp only
  cases hf : findEntry c.nodes ⟨k, tl, hh⟩ with
  | some e => exact h
  | none => exact findEntry_cons_preserve _ _ _ _ _ hf h

theorem cache_node_nodes_mono (c : ThreadedNodeCache) (k : Nat)
    (all : List GreenElement) (off : Nat) (hd : GreenNodeHead)
    (v : GreenElement) (h : findEntry c.nodes hd = some v) :
    findEntry (c.node k all off).2.2.nodes hd = some v := by
  unfold ThreadedNodeCache.node
  dsimp only
  split
  · exact get_cached_node_nodes_mono _ _ _ _ _ _ _ h
  · exact h

theorem applyCacheOp_tokens_mono (c : ThreadedNodeCache) (op : CacheOp)
    (d : GreenTokenData) (v : GreenElement)
    (h : findEntry c.tokens d = some v) :
    findEntry (applyCacheOp c op).tokens d = some v := by
  cases op with
  | tokenOp k t l => exact cache_token_tokens_mono _ _ _ _ _ _ h
  | nodeOp k cs off =>
      show findEntry (c.node k cs off).2.2.tokens d = some v
      rw [cache_node_tokens_eq]
      exact h
  | internOp s =>
      show findEntry (c.intern s).2.tokens d = some v
      rw [(cache_intern_maps_eq c s).1]
      exact h

theorem applyCacheOp_nodes_mono (c : ThreadedNodeCache) (op : CacheOp)
    (hd : GreenNodeHead) (v : GreenElement)
    (h : findEntry c.nodes hd = some v) :
    findEntry (applyCacheOp c op).nodes hd = some v := by
  cases op with
  | tokenOp k t l =>
      show findEntry (c.token k t l).2.nodes hd = some v
      rw [cache_token_nodes_eq]
      exact h
  | nodeOp k cs off => exact cache_node_nodes_mono _ _ _ _ _ _ h
  | internOp s =>
      show findEntry (c.intern s).2.nodes hd = some v
      rw [(cache_intern_maps_eq c s).2]
      exact h

theorem runCacheOps_tokens_mono (c : ThreadedNodeCache) (ops : List CacheOp)
    (d : GreenTokenData) (v : GreenElement)
    (h : findEntry c.tokens d = some v) :
    findEntry (runCacheOps c ops).tokens d = some v := by
  induction ops generalizing c with
  | nil => exact h
  | cons op ops ih => exact ih _ (applyCacheOp_tokens_mono c op d v h)

theorem runCacheOps_nodes_mono (c : ThreadedNodeCache) (ops : List CacheOp)
    (hd : GreenNodeHead) (v : GreenElement)
    (h : findEntry c.nodes hd = some v) :
    findEntry (runCacheOps c ops).nodes hd = some v := by
  induction ops generalizing c with
  | nil => exact h
  | cons op ops ih => exact ih _ (applyCacheOp_nodes_mono c op hd v h)

theorem applyCacheOp_nextId_mono (c : ThreadedNodeCache) (op : CacheOp) :
    c.nextId ≤ (applyCacheOp c op).nextId := by
  cases op with
  | tokenOp k t l =>
      show c.nextId ≤ (c.token k t l).2.nextId
      unfold ThreadedNodeCache.token
      dsimp only
      cases hf : findEntry c.tokens ⟨k, t, l⟩ with
      | some e => exact le_refl _
      | none => exact Nat.le_succ _
  | nodeOp k cs off =>
      show c.nextId ≤ (c.node k cs off).2.2.nextId
      unfold ThreadedNodeCache.node
      dsimp only
      split
      · unfold ThreadedNodeCache.get_cached_node
        dsimp only
        cases hf : findEntry c.nodes _ with
        | some e => exact le_refl _
        | none => exact Nat.le_succ _
      · exact Nat.le_succ _
  | internOp s =>
      show c.nextId ≤ (c.intern s).2.nextId
      unfold ThreadedNodeCache.intern
      cases hf : c.interner.indexOf? s with
      | some i => exact le_refl _
      | none => exact le_refl _

theorem runCacheOps_nextId_mono (c : ThreadedNodeCache) (ops : List CacheOp) :
    c.nextId ≤ (runCacheOps c ops).nextId := by
  induction ops generalizing c with
  | nil => exact le_refl _
  | cons op ops ih =>
      exact le_trans (applyCacheOp_nextId_mono c op) (ih (applyCacheOp c op))

theorem cache_token_hit (c : ThreadedNodeCache) (k : Nat) (t : Option Nat)
    (l : Nat) (v : GreenElement)
    (h : findEntry c.tokens ⟨k, t, l⟩ = some v) : (c.token k t l).1 = v := by
  unfold ThreadedNodeCache.token
  dsimp only
  rw [h]

/-- Claim C5: requesting a token from the cache is deterministic and
returns the unique shared instance stored for the exact triple; after the
first request the triple maps to that instance, and a later request
through the same cache, after any sequence of further cache operations
(for example building a second tree), returns the same shared instance. -/
theorem claim_C5_token_determinism (c : ThreadedNodeCache) (k : Nat)
    (t : Option Nat) (l : Nat) (ops : List CacheOp) :
    findEntry (c.token k t l).2.tokens ⟨k, t, l⟩ = some (c.token k t l).1 ∧
    ((runCacheOps (c.token k t l).2 ops).token k t l).1 = (c.token k t l).1 := by
  refine ⟨cache_token_tokens_lookup c k t l, ?_⟩
  exact cache_token_hit _ _ _ _ _
    (runCacheOps_tokens_mono (c.token k t l).2 ops ⟨k, t, l⟩ _
      (cache_token_tokens_lookup c k t l))

theorem get_cached_node_lookup (c : ThreadedNodeCache) (k : Nat)
    (cs : List GreenElement) (tl hh : Nat) :
    findEntry (c.get_cached_node k cs tl hh).2.nodes ⟨k, tl, hh⟩ =
      some (c.get_cached_node k cs tl hh).1 := by
  unfold ThreadedNodeCache.get_cached_node
  dsimp only
  cases hf : findEntry c.nodes ⟨k, tl, hh⟩ with
  | some e => exact hf
  | none => simp [findEntry]

theorem cache_node_small_lookup (c : ThreadedNodeCache) (k : Nat)
    (cs : List GreenElement) (h : cs.length ≤ CHILDREN_CACHE_THRESHOLD) :
    findEntry (c.node k cs 0).2.2.nodes
        ⟨k, sumTextLenList cs, childrenHash cs⟩ = some (c.node k cs 0).1 := by
  unfold ThreadedNodeCache.node
  dsimp only
  rw [List.drop_zero, if_pos h]
  exact get_cached_node_lookup _ _ _ _ _

theorem cache_node_small_hit (c : ThreadedNodeCache) (k : Nat)
    (cs : List GreenElement) (v : GreenElement)
    (h : cs.length ≤ CHILDREN_CACHE_THRESHOLD)
    (hv : findEntry c.nodes ⟨k, sumTextLenList cs, childrenHash cs⟩ = some v) :
    (c.node k cs 0).1 = v := by
  unfold ThreadedNodeCache.node
  dsimp only
  rw [List.drop_zero, if_pos h]
  unfold ThreadedNodeCache.get_cached_node
  dsimp only
  rw [hv]

theorem cache_node_large (c : ThreadedNodeCache) (k : Nat)
    (cs : List GreenElement) (h : ¬ cs.length ≤ CHILDREN_CACHE_THRESHOLD) :
    (c.node k cs 0).1 =
      GreenElement.node c.nextId ⟨k, sumTextLenList cs, childrenHash cs⟩ cs ∧
    (c.node k cs 0).2.2.nextId = c.nextId + 1 ∧
    (c.node k cs 0).2.2.nodes = c.nodes := by
  unfold ThreadedNodeCache.node
  dsimp only
  rw [List.drop_zero, if_neg h]
  exact ⟨rfl, rfl, rfl⟩

/-- Claim C2: a node with at most CHILDREN_CACHE_THRESHOLD children is
deduplicated through the fingerprint cache, so building a structurally
identical node again through the same cache (after any further cache
activity) yields the same shared instance; a node with more children is
always freshly allocated (the cache is left untouched), so a second
structurally identical build yields a distinct instance that still
carries the same computed kind, length and hash. -/
theorem claim_C2_children_threshold (c : ThreadedNodeCache) (k : Nat)
    (cs : List GreenElement) (ops : List CacheOp) :
    if cs.length ≤ CHILDREN_CACHE_THRESHOLD then
      ((runCacheOps (c.node k cs 0).2.2 ops).node k cs 0).1 = (c.node k cs 0).1
    else
      ((runCacheOps (c.node k cs 0).2.2 ops).node k cs 0).1 ≠ (c.node k cs 0).1 ∧
      ((runCacheOps (c.node k cs 0).2.2 ops).node k cs 0).1.headOf =
        (c.node k cs 0).1.headOf ∧
      (c.node k cs 0).2.2.nodes = c.nodes := by
  by_cases h : cs.length ≤ CHILDREN_CACHE_THRESHOLD
  · rw [if_pos h]
    exact cache_node_small_hit _ _ _ _ h
      (runCacheOps_nodes_mono (c.node k cs 0).2.2 ops _ _
        (cache_node_small_lookup c k cs h))
  · rw [if_neg h]
    obtain ⟨h1, h2, h3⟩ := cache_node_large c k cs h
    obtain ⟨h1', h2', h3'⟩ := cache_node_large (runCacheOps (c.node k cs 0).2.2 ops) k cs h
    have hid : c.nextId < (runCacheOps (c.node k cs 0).2.2 ops).nextId := by
      have := runCacheOps_nextId_mono (c.node k cs 0).2.2 ops
      omega
    refine ⟨?_, ?_, h3⟩
    · intro heq
      rw [h1, h1'] at heq
      have := congrArg GreenElement.elemId heq
      simp only [GreenElement.elemId] at this
      omega
    · rw [h1, h1']
      rfl

/-- A kind assignment with no static text, used by the concrete
scenarios. -/
def st0 : Nat → Option String := fun _ => none

/-- The C4 scenario: inside an open Root node (kind 0), add token A
(kind 1), take a checkpoint, add token B (kind 2), start_node_at the
checkpoint with kind Wrap (3), finish the Wrap node, finish Root, and
finish the tree. -/
def c4run : Option (GreenElement × Option ThreadedNodeCache) :=
  let b1 := (initBuilder true).start_node 0
  let b2 := b1.token st0 1 "a"
  let cp := b2.checkpoint
  let b3 := b2.token st0 2 "b"
  (b3.start_node_at cp 3).bind fun b4 =>
  b4.finish_node.bind fun b5 =>
  b5.finish_node.bind fun b6 =>
  b6.finish

/-- The shared token produced for A in the C4 scenario. -/
def c4tokA : GreenElement := .token 0 ⟨1, some 0, 1⟩

/-- The shared token produced for B in the C4 scenario. -/
def c4tokB : GreenElement := .token 1 ⟨2, some 1, 1⟩

/-- The Wrap node of the C4 scenario: it encloses exactly token B. -/
def c4wrap : GreenElement := .node 2 ⟨3, 1, childrenHash [c4tokB]⟩ [c4tokB]

/-- The expected root of the C4 scenario: children are A followed by
Wrap[B], so B is enclosed in the Wrap node and A is not. -/
def c4root : GreenElement :=
  .node 3 ⟨0, 2, childrenHash [c4tokA, c4wrap]⟩ [c4tokA, c4wrap]

/-- Claim C4: the scenario builds successfully and the root's children are
exactly [A, Wrap[B]] — token B is wrapped by the retroactively opened
node and token A is not. -/
theorem claim_C4_checkpoint_wrapping : c4run.map Prod.fst = some c4root :=
  rfl

/-- Follows the spec's words for finish: it succeeds exactly when one
pending element remains and that element is a node, returning the root
node and, when the builder owned its cache, the cache. -/
def finishSpec (b : ThreadedGreenNodeBuilder) :
    Option (GreenElement × Option ThreadedNodeCache) :=
  match b.children with
  | [e] =>
      match e with
      | GreenElement.node i h cs =>
          some (GreenElement.node i h cs,
                if b.cacheOwned then some b.cache else none)
      | GreenElement.token _ _ => none
  | _ => none

/-- Claim C6: finish succeeds only when exactly one pending element
remains and it is a node (an empty or longer list, or a token root, is a
fatal violation), and on success returns the root together with the cache
exactly when the builder owned it. -/
theorem claim_C6_finish (b : ThreadedGreenNodeBuilder) :
    b.finish = finishSpec b := by
  unfold ThreadedGreenNodeBuilder.finish finishSpec
  cases b.children with
  | nil => rfl
  | cons e es =>
      cases es with
      | nil => cases e <;> rfl
      | cons e2 es2 => cases e <;> rfl

/-- Follows the spec's words for start_node_at: the call is a fatal
violation exactly when the checkpoint exceeds the pending-children length
or an open frame's first-child index strictly exceeds the checkpoint. -/
def startNodeAtViolation (b : ThreadedGreenNodeBuilder) (cp : Nat) : Bool :=
  decide (b.children.length < cp) ||
    (match b.parents with
     | (_, fc) :: _ => decide (cp < fc)
     | [] => false)

/-- Follows the spec's words for start_node_at: fail on a violation,
otherwise push a frame whose first-child index is the checkpoint. -/
def startNodeAtSpec (b : ThreadedGreenNodeBuilder) (cp kind : Nat) :
    Option ThreadedGreenNodeBuilder :=
  if startNodeAtViolation b cp then none
  else some { b with parents := (kind, cp) :: b.parents }

/-- Claim C7: start_node_at is a fatal violation exactly when the
checkpoint exceeds the pending-children length, or a frame is open and
the checkpoint precedes its first-child index; otherwise it pushes a new
frame whose first-child index is the checkpoint. -/
theorem claim_C7_start_node_at (b : ThreadedGreenNodeBuilder)
    (cp kind : Nat) : b.start_node_at cp kind = startNodeAtSpec b cp kind := by
  unfold ThreadedGreenNodeBuilder.start_node_at startNodeAtSpec
    startNodeAtViolation checkpointInScope
  by_cases h1 : cp ≤ b.children.length
  · rw [if_pos h1]
    cases hp : b.parents with
    | nil =>
        have : ¬ b.children.length < cp := Nat.not_lt.mpr h1
        simp [this]
    | cons p rest =>
        obtain ⟨k0, fc⟩ := p
        by_cases h2 : fc ≤ cp
        · have : ¬ b.children.length < cp := Nat.not_lt.mpr h1
          have h2' : ¬ cp < fc := Nat.not_lt.mpr h2
          simp [this, h2, h2']
        · have h2' : cp < fc := Nat.lt_of_not_le h2
          simp [h2, h2']
  · rw [if_neg h1]
    have : b.children.length < cp := Nat.lt_of_not_le h1
    simp [this]

/-- Claim C8: mutable interner access is exposed only under exclusive
ownership — through the cache exactly when the cache owns the interner,
and through the builder exactly when the builder owns the cache and the
cache owns the interner. -/
theorem claim_C8_interner_mut :
    (∀ c : ThreadedNodeCache, (c.interner_mut).isSome = c.internerOwned) ∧
    (∀ b : ThreadedGreenNodeBuilder,
      (b.interner_mut).isSome = (b.cacheOwned && b.cache.internerOwned)) := by
  constructor
  · intro c
    unfold ThreadedNodeCache.interner_mut
    cases hco : c.internerOwned <;> simp
  · intro b
    unfold ThreadedGreenNodeBuilder.interner_mut ThreadedNodeCache.interner_mut
    cases hb : b.cacheOwned <;> cases hc : b.cache.internerOwned <;> simp [hb, hc]

/-- A concrete builder with one open frame and one pending token, used to
witness the finish_node theorem. -/
def wit1Builder : ThreadedGreenNodeBuilder :=
  ((initBuilder true).start_node 0).token st0 1 "a"

/-- Witness for claim C1 at a concrete builder state. -/
theorem claim_C1_witness :
    wit1Builder.finish_node = some
      { wit1Builder with
        cache := (wit1Builder.cache.node 0 wit1Builder.children 0).2.2
        parents := []
        children := wit1Builder.children.take 0 ++
          [(wit1Builder.cache.node 0 wit1Builder.children 0).1] } ∧
    (wit1Builder.children.take 0 ++
      [(wit1Builder.cache.node 0 wit1Builder.children 0).1]).length = 0 + 1 :=
  claim_C1_finish_node wit1Builder 0 0 [] rfl (Nat.zero_le _)

/-- A concrete successful operation sequence: open a node, add a token,
finish the node. -/
def wit3Ops : List BuilderOp :=
  [BuilderOp.startNodeOp 0, BuilderOp.tokenOp 1 "a", BuilderOp.finishNodeOp]

/-- The builder state reached by wit3Ops. -/
def wit3Builder : ThreadedGreenNodeBuilder :=
  (run st0 (initBuilder true) wit3Ops).getD (initBuilder true)

/-- Witness for claim C3 at a concrete run. -/
theorem claim_C3_witness :
    run st0 (initBuilder true) wit3Ops = some wit3Builder ∧
    wit3Builder.document_len = tokenLengthsList wit3Builder.children :=
  ⟨rfl, claim_C3_document_len st0 true wit3Ops wit3Builder rfl⟩

/-- Witness for claim C9 at a concrete run. -/
theorem claim_C9_witness :
    framesOk wit3Builder.parents wit3Builder.children.length = true ∧
      wit3Builder.currentFirstChild ≤ wit3Builder.children.length :=
  claim_C9_frame_invariant st0 true wit3Ops wit3Builder rfl

/-- Witness for claim C10 at a concrete run. -/
theorem claim_C10_witness :
    wit3Builder.start_node_at wit3Builder.checkpoint 5 =
      some (wit3Builder.start_node 5) :=
  claim_C10_start_node_at_checkpoint st0 true wit3Ops wit3Builder 5 rfl
